import Mathlib

/-!
Verification of the `extract_map` crate.

A shallow embedding of `ExtractMap<K, V, S>` (src/lib.rs), its `MutGuard`
(src/mut_guard.rs), its entry API (src/entry.rs), its lending mutable
iterator (src/iter/ref_mut.rs) and the serde adapters (src/serde.rs).

The backing `hashbrown::HashTable<V>` is abstracted as the list of stored
values in table order.  Hashing only narrows the set of probed slots; the
observable behaviour of every operation is determined by the equality
probe against the extracted key, which we model as a first-match search
over the table.  The key-extraction capability `ExtractKey::extract_key`
is passed explicitly as a function `ek : V → K`.
-/

section ExtractMapModel

variable {K V W : Type} [DecidableEq K]

/-- Embedding of `ExtractMap<K, V, S>` (src/lib.rs): the backing
`hashbrown::HashTable<V>` is the list of stored values in table order. -/
structure ExtractMap (V : Type) : Type where
  table : List V
deriving DecidableEq

/-- The probe of `ExtractMap::get` (src/lib.rs):
`self.table.find(hash, |v| key == v.extract_key())`, i.e. the first stored
value whose extracted key equals `k`. -/
def ExtractMap.get (ek : V → K) (m : ExtractMap V) (k : K) : Option V :=
  m.table.find? fun v => decide (k = ek v)

/-- `ExtractMap::contains_key` (src/lib.rs): `self.get(key).is_some()`. -/
def ExtractMap.contains_key (ek : V → K) (m : ExtractMap V) (k : K) : Bool :=
  (m.get ek k).isSome

/-- `ExtractMap::len` (src/lib.rs): `self.table.len()`. -/
def ExtractMap.len (m : ExtractMap V) : Nat :=
  m.table.length

/-- `ExtractMap::is_empty` (src/lib.rs): `self.table.is_empty()`. -/
def ExtractMap.is_empty (m : ExtractMap V) : Bool :=
  m.table.isEmpty

/-- The table-level behaviour of `ExtractMap::insert` (src/lib.rs): probe
with `|v| key == v.extract_key()` where `key = value.extract_key()`; on
the `Entry::Occupied` branch replace in place (`replace(entry.into_mut(),
value)`) returning the previous value, on the `Entry::Vacant` branch place
the value into a fresh slot and return nothing. -/
def insertList (ek : V → K) (v : V) : List V → Option V × List V
  | [] => (none, [v])
  | w :: ws =>
    if ek v = ek w then (some w, v :: ws)
    else
      let r := insertList ek v ws
      (r.1, w :: r.2)

/-- `ExtractMap::insert` (src/lib.rs), returning the replaced value (if
any) together with the updated map. -/
def ExtractMap.insert (ek : V → K) (m : ExtractMap V) (v : V) :
    Option V × ExtractMap V :=
  let r := insertList ek v m.table
  (r.1, ⟨r.2⟩)

/-- The table-level behaviour of `ExtractMap::remove` (src/lib.rs):
`find_entry(hash, |v| key == v.extract_key())`, vacating the found slot
and returning its value, or returning nothing and leaving the table
untouched. -/
def removeList (ek : V → K) (k : K) : List V → Option V × List V
  | [] => (none, [])
  | w :: ws =>
    if k = ek w then (some w, ws)
    else
      let r := removeList ek k ws
      (r.1, w :: r.2)

/-- `ExtractMap::remove` (src/lib.rs), returning the removed value (if
any) together with the updated map. -/
def ExtractMap.remove (ek : V → K) (m : ExtractMap V) (k : K) :
    Option V × ExtractMap V :=
  let r := removeList ek k m.table
  (r.1, ⟨r.2⟩)

/-- `MutGuard<'a, K, V, S>` (src/mut_guard.rs): it owns the value taken
out of the map (`value: ManuallyDrop<V>`) and the map it was taken from
(`map: &'a mut ExtractMap<K, V, S>`). -/
structure MutGuard (V : Type) : Type where
  value : V
  map : ExtractMap V
deriving DecidableEq

/-- `ExtractMap::get_mut` (src/lib.rs): `let value = self.remove(key)?;`
then wrap the removed value and the map in a `MutGuard`. -/
def ExtractMap.get_mut (ek : V → K) (m : ExtractMap V) (k : K) :
    Option (MutGuard V) :=
  match m.remove ek k with
  | (some v, m') => some ⟨v, m'⟩
  | (none, _) => none

/-- Mutation through the guard's `DerefMut` impl (src/mut_guard.rs):
the caller may rewrite the held value arbitrarily, the map is untouched. -/
def MutGuard.modify (f : V → V) (g : MutGuard V) : MutGuard V :=
  ⟨f g.value, g.map⟩

/-- `Drop for MutGuard` (src/mut_guard.rs): take the held value out of the
`ManuallyDrop` and reinsert it via `self.map.insert(value)`. -/
def MutGuard.release (ek : V → K) (g : MutGuard V) : ExtractMap V :=
  (g.map.insert ek g.value).2

/-- `FromIterator for ExtractMap` (src/lib.rs): start from an empty map
and `insert` every value in order. -/
def ExtractMap.fromList (ek : V → K) (vs : List V) : ExtractMap V :=
  vs.foldl (fun m v => (m.insert ek v).2) ⟨[]⟩

/-- Invariant 1 of the spec, maintained by the table: at most one stored
value has any given extracted key, i.e. the extracted keys of the table
are pairwise distinct. -/
def ExtractMap.WF (ek : V → K) (m : ExtractMap V) : Prop :=
  (m.table.map ek).Nodup

instance (ek : V → K) (m : ExtractMap V) : Decidable (m.WF ek) := by
  unfold ExtractMap.WF; infer_instance

/-- The driving loop of `IterMut` (src/iter/ref_mut.rs): `next` pops the
front of the snapshotted key deque and returns `self.map.get_mut(&key)`;
`?` ends the traversal when the lookup misses.  The caller mutates each
yielded guard with `f` and drops it before the next step. -/
def iterMutSteps (ek : V → K) (f : V → V) : List K → ExtractMap V → ExtractMap V
  | [], m => m
  | k :: ks, m =>
    match m.get_mut ek k with
    | some g => iterMutSteps ek f ks ((g.modify f).release ek)
    | none => m

/-- `IterMut::new` (src/iter/ref_mut.rs) followed by driving the lending
iterator to completion: snapshot (clone) all current keys in table order,
then perform one `get_mut`/mutate/release step per snapshotted key. -/
def ExtractMap.iterMutForEach (ek : V → K) (f : V → V) (m : ExtractMap V) :
    ExtractMap V :=
  iterMutSteps ek f (m.table.map ek) m

/-- `Entry<'a, V>` (src/entry.rs): an `Occupied` entry carries the position
of the matched slot (modelled as the table split around that slot), a
`Vacant` entry carries the table unchanged. -/
inductive MapEntry (V : Type) : Type where
  | occupied (pre : List V) (value : V) (post : List V)
  | vacant (table : List V)
deriving DecidableEq

/-- The single probe of `ExtractMap::entry` (src/entry.rs):
`self.raw_entry(key)` finds the first slot whose stored value's extracted
key equals `k` and remembers its position, or reports vacancy. -/
def entryList (ek : V → K) (k : K) : List V → MapEntry V
  | [] => .vacant []
  | w :: ws =>
    if k = ek w then .occupied [] w ws
    else
      match entryList ek k ws with
      | .occupied pre v post => .occupied (w :: pre) v post
      | .vacant t => .vacant (w :: t)

/-- `ExtractMap::entry` (src/entry.rs). -/
def ExtractMap.entry (ek : V → K) (m : ExtractMap V) (k : K) : MapEntry V :=
  entryList ek k m.table

/-- `Entry::and_modify` (src/entry.rs): apply `f` in place to an occupied
slot, do nothing to a vacant entry, and return the entry for chaining. -/
def MapEntry.and_modify (f : V → V) : MapEntry V → MapEntry V
  | .occupied pre v post => .occupied pre (f v) post
  | .vacant t => .vacant t

/-- Recovering the map an entry is a view of (dropping the entry, or
`into_raw` without further edits). -/
def MapEntry.toMap : MapEntry V → ExtractMap V
  | .occupied pre v post => ⟨pre ++ v :: post⟩
  | .vacant t => ⟨t⟩

/-- `PartialEq for ExtractMap` (src/lib.rs): equal lengths, and every
stored value of `self`, looked up in `other` by its extracted key, finds a
value with the same key that compares equal. -/
def ExtractMap.mapEq [DecidableEq V] (ek : V → K) (m other : ExtractMap V) :
    Bool :=
  m.len == other.len &&
    m.table.all fun v =>
      match other.get ek (ek v) with
      | some ov => decide (ek v = ek ov) && decide (v = ov)
      | none => false

/-- `Visitor::visit_seq` of `Deserialize for ExtractMap` (src/serde.rs):
the decoded value records are collected through `FromIterator`, i.e.
inserted one by one. -/
def deserializeSeq (ek : V → K) (vs : List V) : ExtractMap V :=
  ExtractMap.fromList ek vs

/-- `Visitor::visit_map` of `Deserialize for ExtractMap` (src/serde.rs):
each wire entry is decoded as `(IgnoredAny, V)`, the outer key is dropped
(`.map(|res| res.map(|(_, v)| v))`) and the values are collected through
`FromIterator`. -/
def deserializeMap (ek : V → K) (es : List (W × V)) : ExtractMap V :=
  ExtractMap.fromList ek (es.map Prod.snd)

/-- The `User` value type of the crate's doc examples and tests
(src/doc_examples.rs): `id` is the extracted key, `name` is a non-key
field. -/
structure User : Type where
  id : Nat
  name : String
deriving DecidableEq

/-- `ExtractKey<u64> for User`: `fn extract_key(&self) -> &u64 { &self.id }`. -/
def User.extract_key (u : User) : Nat :=
  u.id

end ExtractMapModel

section CoreLemmas

variable {K V W : Type} [DecidableEq K]

theorem insertList_fst (ek : V → K) (v : V) (t : List V) :
    (insertList ek v t).1 = t.find? fun w => decide (ek v = ek w) := by
  induction t with
  | nil => simp [insertList]
  | cons w ws ih =>
    by_cases h : ek v = ek w
    · simp [insertList, List.find?, h]
    · simp [insertList, List.find?, h, ih]

theorem insertList_find? (ek : V → K) (v : V) (k : K) (t : List V) :
    (insertList ek v t).2.find? (fun w => decide (k = ek w)) =
      if k = ek v then some v else t.find? fun w => decide (k = ek w) := by
  induction t with
  | nil => by_cases h : k = ek v <;> simp [insertList, List.find?, h]
  | cons w ws ih =>
    by_cases h : ek v = ek w
    · by_cases hk : k = ek v
      · simp [insertList, List.find?, h, hk]
      · have hw : ¬ k = ek w := h ▸ hk
        simp [insertList, List.find?, h, hk, hw]
    · by_cases hw : k = ek w
      · have hk : ¬ k = ek v := fun hkv => h (hkv ▸ hw)
        have hvw : ¬ ek w = ek v := fun hh => h hh.symm
        simp [insertList, List.find?, h, hw, hk, hvw]
      · simp [insertList, List.find?, h, hw, ih]

theorem insertList_length (ek : V → K) (v : V) (t : List V) :
    (insertList ek v t).2.length =
      if (t.find? fun w => decide (ek v = ek w)).isSome
      then t.length else t.length + 1 := by
  induction t with
  | nil => simp [insertList, List.find?]
  | cons w ws ih =>
    by_cases h : ek v = ek w
    · simp [insertList, List.find?, h]
    · rw [List.find?_cons_of_neg _ (by simpa using h)]
      simp only [insertList, if_neg h, List.length_cons]
      rw [ih]
      by_cases hf : (ws.find? fun x => decide (ek v = ek x)).isSome
      · simp [hf]
      · simp [hf]

theorem insertList_keys_mem (ek : V → K) (v : V) (t : List V) (k0 : K)
    (h : k0 ∈ (insertList ek v t).2.map ek) : k0 = ek v ∨ k0 ∈ t.map ek := by
  induction t with
  | nil => simpa [insertList] using h
  | cons w ws ih =>
    by_cases hc : ek v = ek w
    · simp only [insertList, if_pos hc, List.map_cons, List.mem_cons] at h
      rcases h with h | h
      · exact Or.inl h
      · exact Or.inr (List.mem_cons_of_mem _ h)
    · simp only [insertList, if_neg hc, List.map_cons, List.mem_cons] at h
      rcases h with h | h
      · exact Or.inr (List.mem_cons.mpr (Or.inl h))
      · rcases ih h with h' | h'
        · exact Or.inl h'
        · exact Or.inr (List.mem_cons_of_mem _ h')

theorem insertList_nodup (ek : V → K) (v : V) (t : List V)
    (h : (t.map ek).Nodup) : ((insertList ek v t).2.map ek).Nodup := by
  induction t with
  | nil => simp [insertList]
  | cons w ws ih =>
    rw [List.map_cons, List.nodup_cons] at h
    by_cases hc : ek v = ek w
    · simp only [insertList, if_pos hc, List.map_cons, List.nodup_cons]
      exact ⟨hc ▸ h.1, h.2⟩
    · simp only [insertList, if_neg hc, List.map_cons, List.nodup_cons]
      refine ⟨fun hmem => ?_, ih h.2⟩
      rcases insertList_keys_mem ek v ws (ek w) hmem with h' | h'
      · exact hc (h'.symm)
      · exact h.1 h'

theorem insertList_keys_toFinset (ek : V → K) (v : V) (t : List V) :
    ((insertList ek v t).2.map ek).toFinset =
      insert (ek v) (t.map ek).toFinset := by
  induction t with
  | nil => simp [insertList]
  | cons w ws ih =>
    by_cases hc : ek v = ek w
    · simp only [insertList, if_pos hc, List.map_cons, List.toFinset_cons]
      rw [← hc, Finset.insert_idem]
    · simp only [insertList, if_neg hc, List.map_cons, List.toFinset_cons, ih]
      exact Finset.Insert.comm (ek w) (ek v) (ws.map ek).toFinset

theorem removeList_fst (ek : V → K) (k : K) (t : List V) :
    (removeList ek k t).1 = t.find? fun w => decide (k = ek w) := by
  induction t with
  | nil => simp [removeList]
  | cons w ws ih =>
    by_cases h : k = ek w
    · simp [removeList, List.find?, h]
    · simp [removeList, List.find?, h, ih]

theorem removeList_absent (ek : V → K) (k : K) (t : List V)
    (h : t.find? (fun w => decide (k = ek w)) = none) :
    removeList ek k t = (none, t) := by
  induction t with
  | nil => simp [removeList]
  | cons w ws ih =>
    rw [List.find?_eq_none] at h
    have hw : ¬ k = ek w := by simpa using h w (by simp)
    have hws : ws.find? (fun w => decide (k = ek w)) = none := by
      rw [List.find?_eq_none]
      exact fun x hx => h x (List.mem_cons_of_mem w hx)
    simp [removeList, hw, ih hws]

theorem removeList_length (ek : V → K) (k : K) (t : List V) (v : V)
    (h : (removeList ek k t).1 = some v) :
    (removeList ek k t).2.length + 1 = t.length := by
  induction t with
  | nil => simp [removeList] at h
  | cons w ws ih =>
    by_cases hw : k = ek w
    · simp [removeList, hw]
    · simp only [removeList, if_neg hw] at h ⊢
      simp [ih h]

theorem removeList_key (ek : V → K) (k : K) (t : List V) (v : V)
    (h : (removeList ek k t).1 = some v) : ek v = k := by
  induction t with
  | nil => simp [removeList] at h
  | cons w ws ih =>
    by_cases hw : k = ek w
    · simp only [removeList, if_pos hw] at h
      cases h
      exact hw.symm
    · simp only [removeList, if_neg hw] at h
      exact ih h

theorem removeList_sublist (ek : V → K) (k : K) (t : List V) :
    ((removeList ek k t).2).Sublist t := by
  induction t with
  | nil => simp [removeList]
  | cons w ws ih =>
    by_cases hw : k = ek w
    · simp only [removeList, if_pos hw]
      exact List.sublist_cons_self w ws
    · simp only [removeList, if_neg hw]
      exact ih.cons₂ w

theorem removeList_find?_other (ek : V → K) (k k' : K) (t : List V)
    (hne : k' ≠ k) :
    (removeList ek k t).2.find? (fun w => decide (k' = ek w)) =
      t.find? fun w => decide (k' = ek w) := by
  induction t with
  | nil => simp [removeList]
  | cons w ws ih =>
    by_cases hw : k = ek w
    · have hw' : ¬ k' = ek w := fun h => hne (h.trans hw.symm)
      simp [removeList, List.find?, hw, hw']
    · by_cases hw' : k' = ek w
      · simp [removeList, List.find?, hw, hw']
      · simp [removeList, List.find?, hw, hw', ih]

theorem removeList_find?_self (ek : V → K) (k : K) (t : List V)
    (hnd : (t.map ek).Nodup) :
    (removeList ek k t).2.find? (fun w => decide (k = ek w)) = none := by
  induction t with
  | nil => simp [removeList]
  | cons w ws ih =>
    rw [List.map_cons, List.nodup_cons] at hnd
    by_cases hw : k = ek w
    · simp only [removeList, if_pos hw]
      rw [List.find?_eq_none]
      intro x hx
      simp only [decide_eq_true_eq]
      intro hkx
      exact hnd.1 (hw ▸ hkx ▸ List.mem_map_of_mem ek hx)
    · simp [removeList, List.find?, hw, ih hnd.2]

end CoreLemmas

section MapLemmas

variable {K V W : Type} [DecidableEq K]

theorem get_insert (ek : V → K) (m : ExtractMap V) (v : V) (k : K) :
    ((m.insert ek v).2).get ek k = if k = ek v then some v else m.get ek k :=
  insertList_find? ek v k m.table

theorem insert_fst (ek : V → K) (m : ExtractMap V) (v : V) :
    (m.insert ek v).1 = m.get ek (ek v) :=
  insertList_fst ek v m.table

theorem len_insert (ek : V → K) (m : ExtractMap V) (v : V) :
    ((m.insert ek v).2).len =
      if (m.get ek (ek v)).isSome then m.len else m.len + 1 :=
  insertList_length ek v m.table

theorem WF_insert (ek : V → K) (m : ExtractMap V) (v : V) (h : m.WF ek) :
    ((m.insert ek v).2).WF ek :=
  insertList_nodup ek v m.table h

theorem remove_fst (ek : V → K) (m : ExtractMap V) (k : K) :
    (m.remove ek k).1 = m.get ek k :=
  removeList_fst ek k m.table

theorem remove_absent (ek : V → K) (m : ExtractMap V) (k : K)
    (h : m.get ek k = none) : m.remove ek k = (none, m) := by
  have hr := removeList_absent ek k m.table h
  simp [ExtractMap.remove, hr]

theorem get_remove_other (ek : V → K) (m : ExtractMap V) (k k' : K)
    (hne : k' ≠ k) : ((m.remove ek k).2).get ek k' = m.get ek k' :=
  removeList_find?_other ek k k' m.table hne

theorem get_remove_self (ek : V → K) (m : ExtractMap V) (k : K)
    (h : m.WF ek) : ((m.remove ek k).2).get ek k = none :=
  removeList_find?_self ek k m.table h

theorem WF_remove (ek : V → K) (m : ExtractMap V) (k : K) (h : m.WF ek) :
    ((m.remove ek k).2).WF ek :=
  h.sublist ((removeList_sublist ek k m.table).map ek)

theorem len_remove (ek : V → K) (m : ExtractMap V) (k : K) (v : V)
    (h : (m.remove ek k).1 = some v) : (m.remove ek k).2.len + 1 = m.len :=
  removeList_length ek k m.table v h

theorem get_mut_eq (ek : V → K) (m : ExtractMap V) (k : K) (g : MutGuard V)
    (h : m.get_mut ek k = some g) :
    (m.remove ek k).1 = some g.value ∧ (m.remove ek k).2 = g.map := by
  unfold ExtractMap.get_mut at h
  rcases hr : m.remove ek k with ⟨o, m'⟩
  rw [hr] at h
  cases o with
  | some v =>
    injection h with h
    subst h
    exact ⟨rfl, rfl⟩
  | none => exact Option.noConfusion h

theorem get_mut_of_get (ek : V → K) (m : ExtractMap V) (k : K) (v : V)
    (h : m.get ek k = some v) :
    m.get_mut ek k = some ⟨v, (m.remove ek k).2⟩ := by
  have h1 : (m.remove ek k).1 = some v := by rw [remove_fst]; exact h
  unfold ExtractMap.get_mut
  rcases hr : m.remove ek k with ⟨o, m'⟩
  rw [hr] at h1
  cases o with
  | some w =>
    injection h1 with h1
    subst h1
    simp [hr]
  | none => exact Option.noConfusion h1

theorem get_mut_value_key (ek : V → K) (m : ExtractMap V) (k : K)
    (g : MutGuard V) (h : m.get_mut ek k = some g) : ek g.value = k :=
  removeList_key ek k m.table g.value (get_mut_eq ek m k g h).1

theorem get_foldl (ek : V → K) (k : K) (vs : List V) :
    ∀ m : ExtractMap V,
      (vs.foldl (fun m v => (m.insert ek v).2) m).get ek k =
        match vs.reverse.find? (fun v => decide (k = ek v)) with
        | some v => some v
        | none => m.get ek k := by
  induction vs with
  | nil => intro m; simp
  | cons v vs ih =>
    intro m
    rw [List.foldl_cons, ih ((m.insert ek v).2)]
    rw [List.reverse_cons, List.find?_append]
    cases hf : vs.reverse.find? fun v => decide (k = ek v) with
    | some w => simp [Option.or]
    | none =>
      rw [get_insert]
      by_cases hk : k = ek v <;> simp [Option.or, List.find?, hk]

theorem len_foldl (ek : V → K) (vs : List V) :
    ∀ m : ExtractMap V, m.WF ek →
      (vs.foldl (fun m v => (m.insert ek v).2) m).len =
        ((m.table.map ek).toFinset ∪ (vs.map ek).toFinset).card := by
  induction vs with
  | nil =>
    intro m hm
    simp only [List.foldl_nil, List.map_nil, List.toFinset_nil,
      Finset.union_empty, List.toFinset_card_of_nodup hm, List.length_map]
    rfl
  | cons v vs ih =>
    intro m hm
    rw [List.foldl_cons, ih _ (WF_insert ek m v hm)]
    rw [show ((m.insert ek v).2.table.map ek).toFinset =
          insert (ek v) (m.table.map ek).toFinset from
        insertList_keys_toFinset ek v m.table]
    rw [List.map_cons, List.toFinset_cons, Finset.insert_union,
      Finset.union_insert]

theorem entryList_vacant (ek : V → K) (k : K) (t : List V)
    (h : t.find? (fun w => decide (k = ek w)) = none) :
    entryList ek k t = .vacant t := by
  induction t with
  | nil => simp [entryList]
  | cons w ws ih =>
    rw [List.find?_eq_none] at h
    have hw : ¬ k = ek w := by simpa using h w (by simp)
    have hws : ws.find? (fun w => decide (k = ek w)) = none := by
      rw [List.find?_eq_none]
      exact fun x hx => h x (List.mem_cons_of_mem w hx)
    simp [entryList, hw, ih hws]

theorem entryList_occupied (ek : V → K) (k : K) (t : List V)
    (pre : List V) (v : V) (post : List V)
    (h : entryList ek k t = .occupied pre v post) :
    t = pre ++ v :: post ∧ k = ek v := by
  induction t generalizing pre v post with
  | nil => exact MapEntry.noConfusion h
  | cons w ws ih =>
    by_cases hw : k = ek w
    · simp only [entryList, if_pos hw] at h
      injection h with h1 h2 h3
      subst h1; subst h2; subst h3
      exact ⟨rfl, hw⟩
    · simp only [entryList, if_neg hw] at h
      cases he : entryList ek k ws with
      | occupied pre' v' post' =>
        rw [he] at h
        injection h with h1 h2 h3
        subst h1; subst h2; subst h3
        exact ⟨by rw [(ih pre' v' post' he).1, List.cons_append], (ih pre' v' post' he).2⟩
      | vacant t' =>
        rw [he] at h
        exact MapEntry.noConfusion h

end MapLemmas

section ConcreteData

/-- The two-record example map of the spec's scenarios:
`{id:1,name:"Cat"}` and `{id:2,name:"Fox"}` inserted into an empty map. -/
def exMap : ExtractMap User :=
  ExtractMap.fromList User.extract_key [⟨1, "Cat"⟩, ⟨2, "Fox"⟩]

end ConcreteData

section Claims

variable {K V W : Type} [DecidableEq K]

/-- Claim C1: for a key `k` present in a well-formed map, acquiring a guard
via `get_mut(k)` and mutating the held value with `f` before release:
if the mutated value still extracts key `k`, `get(k)` returns the mutated
value after release; if it extracts a different key `k2`, `get(k)` returns
nothing and `get(k2)` returns the mutated value — release reinserts the
held value through `insert`, keyed by its current extracted key. -/
theorem c1_guard_reinsert (ek : V → K) (m : ExtractMap V) (k k2 : K)
    (f : V → V) (g : MutGuard V) (hwf : m.WF ek)
    (hg : m.get_mut ek k = some g) :
    (ek (f g.value) = k →
      ((g.modify f).release ek).get ek k = some (f g.value)) ∧
    (ek (f g.value) = k2 → k2 ≠ k →
      ((g.modify f).release ek).get ek k = none ∧
      ((g.modify f).release ek).get ek k2 = some (f g.value)) := by
  obtain ⟨h1, h2⟩ := get_mut_eq ek m k g hg
  have hmap : g.map.get ek k = none := by
    rw [← h2]; exact get_remove_self ek m k hwf
  have hrel : ∀ k', ((g.modify f).release ek).get ek k' =
      if k' = ek (f g.value) then some (f g.value) else g.map.get ek k' :=
    fun k' => get_insert ek g.map (f g.value) k'
  constructor
  · intro hk
    rw [hrel k, if_pos hk.symm]
  · intro hk2 hne
    refine ⟨?_, ?_⟩
    · rw [hrel k, if_neg fun hh => hne ((hh.trans hk2).symm)]
      exact hmap
    · rw [hrel k2, if_pos hk2.symm]

/-- Witness for C1 on the concrete two-record map: rewriting the key of
the value held under key `1` to `2` and releasing makes `get(1)` miss and
`get(2)` return the rewritten value. -/
theorem c1_guard_reinsert_witness :
    ((MutGuard.modify (fun u => ⟨2, u.name⟩)
        ⟨⟨1, "Cat"⟩, ⟨[⟨2, "Fox"⟩]⟩⟩).release User.extract_key).get
      User.extract_key 1 = none ∧
    ((MutGuard.modify (fun u => ⟨2, u.name⟩)
        ⟨⟨1, "Cat"⟩, ⟨[⟨2, "Fox"⟩]⟩⟩).release User.extract_key).get
      User.extract_key 2 = some ⟨2, "Cat"⟩ :=
  (c1_guard_reinsert User.extract_key exMap 1 2 (fun u => ⟨2, u.name⟩)
    ⟨⟨1, "Cat"⟩, ⟨[⟨2, "Fox"⟩]⟩⟩ (by decide) (by decide)).2 rfl (by decide)

/-- Claim C2: while a guard obtained from `get_mut(k)` on a well-formed map
is live, `get(k)` and `contains_key(k)` report absence on the guarded
map; releasing the guard unchanged restores `get(k)` to the held value
and `contains_key(k)` to `true`. -/
theorem c2_guard_absence (ek : V → K) (m : ExtractMap V) (k : K)
    (g : MutGuard V) (hwf : m.WF ek) (hg : m.get_mut ek k = some g) :
    g.map.get ek k = none ∧ g.map.contains_key ek k = false ∧
    (g.release ek).get ek k = some g.value ∧
    (g.release ek).contains_key ek k = true := by
  obtain ⟨h1, h2⟩ := get_mut_eq ek m k g hg
  have hkey : ek g.value = k := get_mut_value_key ek m k g hg
  have habs : g.map.get ek k = none := by
    rw [← h2]; exact get_remove_self ek m k hwf
  have hrel : (g.release ek).get ek k = some g.value := by
    show ((g.map.insert ek g.value).2).get ek k = some g.value
    rw [get_insert, if_pos hkey.symm]
  exact ⟨habs, by simp [ExtractMap.contains_key, habs], hrel,
    by simp [ExtractMap.contains_key, hrel]⟩

/-- Witness for C2 on the concrete two-record map with the guard for
key `1` live, then released unchanged. -/
theorem c2_guard_absence_witness :
    (⟨⟨1, "Cat"⟩, ⟨[⟨2, "Fox"⟩]⟩⟩ : MutGuard User).map.get
      User.extract_key 1 = none ∧
    (⟨⟨1, "Cat"⟩, ⟨[⟨2, "Fox"⟩]⟩⟩ : MutGuard User).map.contains_key
      User.extract_key 1 = false ∧
    ((⟨⟨1, "Cat"⟩, ⟨[⟨2, "Fox"⟩]⟩⟩ : MutGuard User).release
      User.extract_key).get User.extract_key 1 = some ⟨1, "Cat"⟩ ∧
    ((⟨⟨1, "Cat"⟩, ⟨[⟨2, "Fox"⟩]⟩⟩ : MutGuard User).release
      User.extract_key).contains_key User.extract_key 1 = true :=
  c2_guard_absence User.extract_key exMap 1 ⟨⟨1, "Cat"⟩, ⟨[⟨2, "Fox"⟩]⟩⟩
    (by decide) (by decide)

/-- Claim C3: `insert(v)` returns the previously stored value under
`extract_key(v)` (replaced in place) if one existed and `none` otherwise,
and `get(extract_key(v))` immediately afterwards returns `v`. -/
theorem c3_insert_lww (ek : V → K) (m : ExtractMap V) (v : V) :
    (m.insert ek v).1 = m.get ek (ek v) ∧
    ((m.insert ek v).2).get ek (ek v) = some v :=
  ⟨insert_fst ek m v, by rw [get_insert, if_pos rfl]⟩

/-- Claim C5: on a well-formed map, `remove(k)` followed by `get(k)` returns
nothing; `remove` on an absent key returns nothing, leaves the map (and
hence `len()`) unchanged, and the operation is total — absence is an
empty result, never an error. -/
theorem c5_remove_absence (ek : V → K) (m : ExtractMap V) (k : K)
    (hwf : m.WF ek) :
    ((m.remove ek k).2).get ek k = none ∧
    (m.get ek k = none →
      m.remove ek k = (none, m) ∧ ((m.remove ek k).2).len = m.len) := by
  refine ⟨get_remove_self ek m k hwf, fun h => ?_⟩
  have hr := remove_absent ek m k h
  exact ⟨hr, by rw [hr]⟩

/-- Witness for C5 on the concrete two-record map at the absent key `5`. -/
theorem c5_remove_absence_witness :
    ((exMap.remove User.extract_key 5).2).get User.extract_key 5 = none ∧
    (exMap.remove User.extract_key 5 = (none, exMap) ∧
      ((exMap.remove User.extract_key 5).2).len = exMap.len) :=
  have h := c5_remove_absence User.extract_key exMap 5 (by decide)
  ⟨h.1, h.2 (by decide)⟩

end Claims

section Claims2

variable {K V W : Type} [DecidableEq K]

/-- Claim C4: on a map holding exactly the keys `{1,2,3}`, driving
`iter_mut()` to completion while changing each yielded value's key from
`key` to `key+10` leaves the table holding exactly `{11,12,13}` — no
duplicates, no lost entries, with each value's non-key field preserved. -/
theorem c4_iter_mut_rekey (s1 s2 s3 : String) :
    ((ExtractMap.fromList User.extract_key
        [⟨1, s1⟩, ⟨2, s2⟩, ⟨3, s3⟩]).iterMutForEach User.extract_key
          (fun u => ⟨u.id + 10, u.name⟩)).table =
      [⟨11, s1⟩, ⟨12, s2⟩, ⟨13, s3⟩] ∧
    ((ExtractMap.fromList User.extract_key
        [⟨1, s1⟩, ⟨2, s2⟩, ⟨3, s3⟩]).iterMutForEach User.extract_key
          (fun u => ⟨u.id + 10, u.name⟩)).table.map User.extract_key =
      [11, 12, 13] := by
  exact ⟨rfl, rfl⟩

/-- Claim C6: after any sequence of inserts into an initially empty map,
`len()` equals the number of distinct extracted keys among the inserted
values, and the stored value under any key is the last inserted value
with that key. -/
theorem c6_len_distinct_keys (ek : V → K) (vs : List V) (k : K) :
    (ExtractMap.fromList ek vs).len = (vs.map ek).toFinset.card ∧
    (ExtractMap.fromList ek vs).get ek k =
      vs.reverse.find? fun v => decide (k = ek v) := by
  constructor
  · have h := len_foldl ek vs (⟨[]⟩ : ExtractMap V) (by simp [ExtractMap.WF])
    simpa [ExtractMap.fromList] using h
  · have h := get_foldl ek k vs (⟨[]⟩ : ExtractMap V)
    rw [ExtractMap.fromList, h]
    cases vs.reverse.find? fun v => decide (k = ek v) <;>
      simp [ExtractMap.get]

/-- Claim C7: `entry(&k).and_modify(f)` applies `f` in place only when the
entry is occupied, leaves a vacant entry untouched as a no-op, and
returns the entry for chaining; concretely, on the map holding
`{id:1,name:"Cat"}` and `{id:2,name:"Fox"}`, `entry(&1).and_modify`
renaming to `"Dog"` then `get(&1)` yields `{id:1,name:"Dog"}` and `len()`
stays `2`. -/
theorem c7_and_modify (ek : V → K) (m : ExtractMap V) (k : K) (f : V → V) :
    (m.get ek k = none →
      (m.entry ek k).and_modify f = m.entry ek k ∧
      ((m.entry ek k).and_modify f).toMap = m) ∧
    (∀ pre v post, m.entry ek k = .occupied pre v post →
      (m.entry ek k).and_modify f = .occupied pre (f v) post ∧
      m.table = pre ++ v :: post ∧
      ((m.entry ek k).and_modify f).toMap = ⟨pre ++ f v :: post⟩) ∧
    (((exMap.entry User.extract_key 1).and_modify
        (fun u => ⟨u.id, "Dog"⟩)).toMap.get User.extract_key 1 =
      some ⟨1, "Dog"⟩ ∧
     ((exMap.entry User.extract_key 1).and_modify
        (fun u => ⟨u.id, "Dog"⟩)).toMap.len = 2) := by
  refine ⟨fun h => ?_, fun pre v post he => ?_, by decide⟩
  · have he : m.entry ek k = .vacant m.table := entryList_vacant ek k m.table h
    rw [he]
    exact ⟨rfl, rfl⟩
  · obtain ⟨ht, _⟩ := entryList_occupied ek k m.table pre v post he
    rw [he]
    exact ⟨rfl, ht, rfl⟩

/-- Witness for C7: the vacant no-op at the absent key `5` and the
in-place occupied modification at key `1` on the concrete two-record
map. -/
theorem c7_and_modify_witness :
    ((exMap.entry User.extract_key 5).and_modify
      (fun u => ⟨u.id, "Dog"⟩)).toMap = exMap ∧
    (exMap.entry User.extract_key 1).and_modify (fun u => ⟨u.id, "Dog"⟩) =
      .occupied [] ⟨1, "Dog"⟩ [⟨2, "Fox"⟩] := by
  refine ⟨((c7_and_modify User.extract_key exMap 5
    (fun u => ⟨u.id, "Dog"⟩)).1 (by decide)).2, ?_⟩
  exact ((c7_and_modify User.extract_key exMap 1
    (fun u => ⟨u.id, "Dog"⟩)).2.1 [] ⟨1, "Cat"⟩ [⟨2, "Fox"⟩] (by decide)).1

/-- Claim C8: deserialization accepts both a sequence of value records and
a map of value records; the outer wire-format keys of the map form are
ignored, so both wire shapes of the same records produce equal tables —
both structurally and under the crate's order-independent `PartialEq`,
shown on the records `{id:0,name:"A"}`, `{id:1,name:"B"}` with outer keys
`"x"`, `"y"`. -/
theorem c8_deserialize_seq_map_agree (ek : V → K) :
    (∀ es : List (W × V),
      deserializeMap ek es = deserializeSeq ek (es.map Prod.snd)) ∧
    (deserializeMap User.extract_key
        [("x", (⟨0, "A"⟩ : User)), ("y", ⟨1, "B"⟩)]).mapEq User.extract_key
      (deserializeSeq User.extract_key [⟨0, "A"⟩, ⟨1, "B"⟩]) = true :=
  ⟨fun _ => rfl, by decide⟩

/-- Claim C9: on a well-formed map holding two distinct keys `k` and `k2`,
rewriting the value held by the guard for `k` so that it extracts `k2`
and releasing silently replaces the value previously stored under `k2`
(the reinserting `insert` returns it, and the drop glue discards it, so
it is lost with no error) and leaves `len()` one less than before the
guard was acquired. -/
theorem c9_silent_replace (ek : V → K) (m : ExtractMap V) (k k2 : K)
    (v2 : V) (f : V → V) (g : MutGuard V)
    (hwf : m.WF ek) (hg : m.get_mut ek k = some g)
    (h2 : m.get ek k2 = some v2) (hne : k2 ≠ k)
    (hf : ek (f g.value) = k2) :
    (g.map.insert ek (f g.value)).1 = some v2 ∧
    ((g.modify f).release ek).get ek k2 = some (f g.value) ∧
    ((g.modify f).release ek).len = m.len - 1 := by
  obtain ⟨h1, hmapeq⟩ := get_mut_eq ek m k g hg
  have hg2 : g.map.get ek k2 = some v2 := by
    rw [← hmapeq, get_remove_other ek m k k2 hne]
    exact h2
  have hlen : g.map.len + 1 = m.len := by
    rw [← hmapeq]; exact len_remove ek m k g.value h1
  refine ⟨?_, ?_, ?_⟩
  · rw [insert_fst, hf]
    exact hg2
  · show ((g.map.insert ek (f g.value)).2).get ek k2 = some (f g.value)
    rw [get_insert, if_pos hf.symm]
  · show ((g.map.insert ek (f g.value)).2).len = m.len - 1
    rw [len_insert, hf]
    have hs : (g.map.get ek k2).isSome := by rw [hg2]; rfl
    rw [if_pos hs]
    omega

/-- Witness for C9 on the concrete two-record map: rekeying the guarded
`{id:1,name:"Cat"}` to key `2` replaces `{id:2,name:"Fox"}`, which the
reinsertion returns (and the drop glue discards), and the final length
is `1`. -/
theorem c9_silent_replace_witness :
    ((⟨⟨1, "Cat"⟩, ⟨[⟨2, "Fox"⟩]⟩⟩ : MutGuard User).map.insert
      User.extract_key ⟨2, "Cat"⟩).1 = some ⟨2, "Fox"⟩ ∧
    ((MutGuard.modify (fun u => ⟨2, u.name⟩)
        ⟨⟨1, "Cat"⟩, ⟨[⟨2, "Fox"⟩]⟩⟩).release User.extract_key).get
      User.extract_key 2 = some ⟨2, "Cat"⟩ ∧
    ((MutGuard.modify (fun u => ⟨2, u.name⟩)
        ⟨⟨1, "Cat"⟩, ⟨[⟨2, "Fox"⟩]⟩⟩).release User.extract_key).len =
      exMap.len - 1 :=
  c9_silent_replace User.extract_key exMap 1 2 ⟨2, "Fox"⟩
    (fun u => ⟨2, u.name⟩) ⟨⟨1, "Cat"⟩, ⟨[⟨2, "Fox"⟩]⟩⟩
    (by decide) (by decide) (by decide) (by decide) rfl

/-- Claim C10: while a guard from `get_mut(k)` on a well-formed map is
live, `len()` is one less than before (so a previously one-element map
reports empty), every other key's value is unaffected, and releasing the
guard without a key change restores `len()`. -/
theorem c10_guard_frame (ek : V → K) (m : ExtractMap V) (k : K)
    (g : MutGuard V) (hwf : m.WF ek) (hg : m.get_mut ek k = some g) :
    g.map.len = m.len - 1 ∧ 1 ≤ m.len ∧
    (m.len = 1 → g.map.is_empty = true) ∧
    (∀ k', k' ≠ k → g.map.get ek k' = m.get ek k') ∧
    (g.release ek).len = m.len := by
  obtain ⟨h1, hmapeq⟩ := get_mut_eq ek m k g hg
  have hlen : g.map.len + 1 = m.len := by
    rw [← hmapeq]; exact len_remove ek m k g.value h1
  have hkey : ek g.value = k := get_mut_value_key ek m k g hg
  have habs : g.map.get ek k = none := by
    rw [← hmapeq]; exact get_remove_self ek m k hwf
  refine ⟨by omega, by omega, fun hone => ?_, fun k' hk' => ?_, ?_⟩
  · have hz : g.map.table.length = 0 := by
      have := hlen
      unfold ExtractMap.len at this hone
      omega
    simp [ExtractMap.is_empty, List.length_eq_zero.mp hz]
  · rw [← hmapeq]
    exact get_remove_other ek m k k' hk'
  · show ((g.map.insert ek g.value).2).len = m.len
    rw [len_insert, hkey, habs]
    simp only [Option.isSome_none, Bool.false_eq_true, if_false]
    omega

/-- Witness for C10 on the concrete two-record map with the guard for
key `1` live: the guarded map has length `1`, key `2` is untouched, and
release restores length `2`; and on the one-record map `{id:1}` the
guarded map reports empty. -/
theorem c10_guard_frame_witness :
    (⟨⟨1, "Cat"⟩, ⟨[⟨2, "Fox"⟩]⟩⟩ : MutGuard User).map.len =
      exMap.len - 1 ∧
    (⟨⟨1, "Cat"⟩, ⟨[⟨2, "Fox"⟩]⟩⟩ : MutGuard User).map.get
      User.extract_key 2 = exMap.get User.extract_key 2 ∧
    ((⟨⟨1, "Cat"⟩, ⟨[⟨2, "Fox"⟩]⟩⟩ : MutGuard User).release
      User.extract_key).len = exMap.len ∧
    (⟨⟨1, "Cat"⟩, (⟨[]⟩ : ExtractMap User)⟩ : MutGuard User).map.is_empty =
      true :=
  have h := c10_guard_frame User.extract_key exMap 1
    ⟨⟨1, "Cat"⟩, ⟨[⟨2, "Fox"⟩]⟩⟩ (by decide) (by decide)
  have h1 := c10_guard_frame User.extract_key
    (ExtractMap.fromList User.extract_key [⟨1, "Cat"⟩]) 1
    ⟨⟨1, "Cat"⟩, ⟨[]⟩⟩ (by decide) (by decide)
  ⟨h.1, h.2.2.2.1 2 (by decide), h.2.2.2.2, h1.2.2.1 rfl⟩

end Claims2
